import Mathlib

/-!
Verification of the numeric core of a small deep-learning repository:
a linear softmax classifier (assignment1/linear_classifer.py) and a
two-layer fully connected network (assignment2/layers.py, model.py).

NumPy float arrays are modelled as real-valued functions over `Fin`
index types; `np.exp`/`np.log` become `Real.exp`/`Real.log`.  The code
handles both single-sample (1-D) and batched (2-D) inputs by branching
on `ndim`; each branch is embedded as its own definition, suffixed `1`
(vector) and `2` (batch).  Class dimensions use `Fin (n+1)` because
`np.max` over an empty axis raises.
-/

open Finset

/-- A batch of real vectors: `b` rows, `n` columns. -/
abbrev Mat (b n : ℕ) := Fin b → Fin n → ℝ

/-- `np.max(predictions)` over a nonempty 1-D array. -/
noncomputable def vecMax {n : ℕ} (p : Fin (n + 1) → ℝ) : ℝ :=
  Finset.univ.sup' Finset.univ_nonempty p

/-- `softmax` (both files, 1-D branch): subtract the max, exponentiate,
divide by the sum of exponentials. -/
noncomputable def softmax1 {n : ℕ} (p : Fin (n + 1) → ℝ) : Fin (n + 1) → ℝ :=
  fun i => Real.exp (p i - vecMax p) / ∑ j, Real.exp (p j - vecMax p)

/-- `softmax` (both files, 2-D branch): per-row max subtraction and
per-row normalization. -/
noncomputable def softmax2 {b n : ℕ} (p : Mat b (n + 1)) : Mat b (n + 1) :=
  fun i j => Real.exp (p i j - vecMax (p i)) / ∑ k, Real.exp (p i k - vecMax (p i))

/-- Subtracting any constant `M` before exponentiating does not change the
softmax ratio: the `exp M` factors cancel. -/
theorem exp_shift_ratio {n : ℕ} (p : Fin (n + 1) → ℝ) (M : ℝ) (i : Fin (n + 1)) :
    Real.exp (p i - M) / ∑ j, Real.exp (p j - M) =
      Real.exp (p i) / ∑ j, Real.exp (p j) := by
  have hsum : ∑ j, Real.exp (p j - M) = (∑ j, Real.exp (p j)) / Real.exp M := by
    rw [Finset.sum_div]
    exact Finset.sum_congr rfl fun j _ => (Real.exp_sub (p j) M)
  rw [hsum, Real.exp_sub, div_div_div_cancel_right₀ (Real.exp_ne_zero M)]

theorem softmax1_eq_unnormalized {n : ℕ} (p : Fin (n + 1) → ℝ) (i : Fin (n + 1)) :
    softmax1 p i = Real.exp (p i) / ∑ j, Real.exp (p j) :=
  exp_shift_ratio p (vecMax p) i

theorem softmax2_eq_unnormalized {b n : ℕ} (p : Mat b (n + 1)) (i : Fin b)
    (j : Fin (n + 1)) :
    softmax2 p i j = Real.exp (p i j) / ∑ k, Real.exp (p i k) :=
  exp_shift_ratio (p i) (vecMax (p i)) j

theorem sum_exp_pos {n : ℕ} (p : Fin (n + 1) → ℝ) :
    0 < ∑ j, Real.exp (p j) :=
  Finset.sum_pos (fun j _ => Real.exp_pos (p j)) Finset.univ_nonempty

theorem softmax1_sum_one {n : ℕ} (p : Fin (n + 1) → ℝ) :
    ∑ i, softmax1 p i = 1 := by
  have h : ∑ i, softmax1 p i = (∑ i, Real.exp (p i)) / ∑ j, Real.exp (p j) := by
    rw [Finset.sum_div]
    exact Finset.sum_congr rfl fun i _ => softmax1_eq_unnormalized p i
  rw [h, div_self (ne_of_gt (sum_exp_pos p))]

theorem softmax1_shift {n : ℕ} (p : Fin (n + 1) → ℝ) (c : ℝ) :
    softmax1 (fun i => p i + c) = softmax1 p := by
  funext i
  rw [softmax1_eq_unnormalized, softmax1_eq_unnormalized]
  have hsum : ∑ j, Real.exp (p j + c) = (∑ j, Real.exp (p j)) * Real.exp c := by
    rw [Finset.sum_mul]
    exact Finset.sum_congr rfl fun j _ => (Real.exp_add (p j) c)
  rw [Real.exp_add, hsum,
    mul_div_mul_right _ _ (Real.exp_ne_zero c)]

/-- C3: softmax output has the shape of its input (encoded in the types),
every row (or the single vector) sums to 1, and the output is invariant
under adding a per-row constant to every entry of that row. -/
theorem softmax_sums_to_one_and_shift_invariant {b n : ℕ} :
    (∀ p : Fin (n + 1) → ℝ, ∑ i, softmax1 p i = 1) ∧
    (∀ p : Mat b (n + 1), ∀ i : Fin b, ∑ j, softmax2 p i j = 1) ∧
    (∀ p : Fin (n + 1) → ℝ, ∀ c : ℝ, softmax1 (fun i => p i + c) = softmax1 p) ∧
    (∀ p : Mat b (n + 1), ∀ c : Fin b → ℝ,
      softmax2 (fun i j => p i j + c i) = softmax2 p) := by
  refine ⟨softmax1_sum_one, fun p i => ?_, softmax1_shift, fun p c => ?_⟩
  · have h : ∀ j, softmax2 p i j = softmax1 (p i) j := fun j => rfl
    rw [Finset.sum_congr rfl fun j _ => h j]
    exact softmax1_sum_one (p i)
  · funext i j
    have h1 : softmax2 (fun i j => p i j + c i) i j =
        softmax1 (fun j => p i j + c i) j := rfl
    have h2 : softmax2 p i j = softmax1 (p i) j := rfl
    rw [h1, h2, softmax1_shift (p i) (c i)]

/-- `cross_entropy_loss` (both files, 1-D branch): `-np.mean(np.log(probs[t]))`,
the mean over the single target probability being that value itself. -/
noncomputable def cross_entropy_loss1 {n : ℕ} (probs : Fin (n + 1) → ℝ)
    (t : Fin (n + 1)) : ℝ :=
  -Real.log (probs t)

/-- `cross_entropy_loss` (both files, 2-D branch):
`-np.mean(np.log(probs[arange(b), t]))`, the mean over the `b` rows. -/
noncomputable def cross_entropy_loss2 {b n : ℕ} (probs : Mat b (n + 1))
    (t : Fin b → Fin (n + 1)) : ℝ :=
  -((∑ i, Real.log (probs i (t i))) / b)

/-- `softmax_with_cross_entropy` (both files, 1-D branch): compute `probs`
and the loss, then subtract 1 at the target position of `probs` in place
(`dprediction[target_index] -= 1`); no division in this branch. -/
noncomputable def softmax_with_cross_entropy1 {n : ℕ} (p : Fin (n + 1) → ℝ)
    (t : Fin (n + 1)) : ℝ × (Fin (n + 1) → ℝ) :=
  let probs := softmax1 p
  let loss := cross_entropy_loss1 probs t
  let dprediction := Function.update probs t (probs t - 1)
  (loss, dprediction)

/-- `softmax_with_cross_entropy` (both files, 2-D branch): compute `probs`
and the loss, subtract 1 at each `(i, t i)` position in place, then divide
every entry by `target_index.size` (the batch size). -/
noncomputable def softmax_with_cross_entropy2 {b n : ℕ} (p : Mat b (n + 1))
    (t : Fin b → Fin (n + 1)) : ℝ × Mat b (n + 1) :=
  let probs := softmax2 p
  let loss := cross_entropy_loss2 probs t
  let subtracted : Mat b (n + 1) := fun i j => if j = t i then probs i j - 1 else probs i j
  let dprediction : Mat b (n + 1) := fun i j => subtracted i j / b
  (loss, dprediction)

/-- C1: the gradient returned by `softmax_with_cross_entropy` is
`softmax(predictions)` with 1 subtracted at each (row, true-class) position,
divided by the batch size in the batched branch, with no division in the
single-sample branch. -/
theorem softmax_with_cross_entropy_grad {b n : ℕ} :
    (∀ (p : Mat b (n + 1)) (t : Fin b → Fin (n + 1)) (i : Fin b) (j : Fin (n + 1)),
      (softmax_with_cross_entropy2 p t).2 i j =
        (softmax2 p i j - if j = t i then 1 else 0) / b) ∧
    (∀ (p : Fin (n + 1) → ℝ) (t : Fin (n + 1)) (i : Fin (n + 1)),
      (softmax_with_cross_entropy1 p t).2 i =
        softmax1 p i - if i = t then 1 else 0) := by
  constructor
  · intro p t i j
    show (if j = t i then softmax2 p i j - 1 else softmax2 p i j) / (b : ℝ) = _
    by_cases h : j = t i <;> simp [h]
  · intro p t i
    show Function.update (softmax1 p) t (softmax1 p t - 1) i = _
    rcases eq_or_ne i t with h | h <;> simp [Function.update_apply, h]

/-- `l2_regularization` (both files): `loss = reg_strength * np.sum(W ** 2)`,
`grad = 2 * reg_strength * W`. -/
def l2_regularization {m n : ℕ} (W : Mat m n) (reg_strength : ℝ) :
    ℝ × Mat m n :=
  (reg_strength * ∑ i, ∑ j, W i j ^ 2, fun i j => 2 * reg_strength * W i j)

/-- C8: `l2_regularization` returns loss `reg_strength` times the sum of
squares of all entries and gradient `2 * reg_strength * W`; it is a pure
function of its arguments (its inputs are not part of its result state). -/
theorem l2_regularization_spec {m n : ℕ} (W : Mat m n) (r : ℝ) :
    (l2_regularization W r).1 = r * ∑ i, ∑ j, W i j * W i j ∧
    (l2_regularization W r).2 = fun i j => 2 * r * W i j := by
  constructor
  · show r * ∑ i, ∑ j, W i j ^ 2 = _
    congr 1
    exact Finset.sum_congr rfl fun i _ => Finset.sum_congr rfl fun j _ => sq (W i j)
  · rfl

/-- `Param` (layers.py): a trainable value together with its accumulated
gradient, both of the same shape. -/
structure Param (m n : ℕ) where
  value : Mat m n
  grad : Mat m n

/-- `ReLULayer.forward`: caches `X` (the cache is passed explicitly to
`backward` below) and returns `np.maximum(0, X)`. -/
noncomputable def relu_forward {b n : ℕ} (X : Mat b n) : Mat b n :=
  fun i j => max 0 (X i j)

/-- `ReLULayer.backward`: `d_result = d_out.copy(); d_result[self.X < 0] = 0`.
`Xc` is the input cached by the last `forward` call. -/
noncomputable def relu_backward {b n : ℕ} (Xc : Mat b n) (d_out : Mat b n) : Mat b n :=
  fun i j => if Xc i j < 0 then 0 else d_out i j

/-- C5: `ReLULayer.backward` is 0 wherever the cached input is strictly
negative and equals `d_out` wherever the cached input is non-negative
(in particular entries with cached input exactly 0 pass through). -/
theorem relu_backward_mask {b n : ℕ} (Xc d_out : Mat b n) (i : Fin b) (j : Fin n) :
    (Xc i j < 0 → relu_backward Xc d_out i j = 0) ∧
    (0 ≤ Xc i j → relu_backward Xc d_out i j = d_out i j) := by
  constructor
  · intro h
    simp [relu_backward, h]
  · intro h
    simp [relu_backward, not_lt.mpr h]

/-- Concrete instantiation of C5 at a cached input with a negative, a zero
and a positive entry. -/
theorem relu_backward_mask_witness :
    (relu_backward (fun _ j => (j : ℝ) - 1 : Mat 1 3) (fun _ _ => (5 : ℝ)) 0 0 = 0) ∧
    (relu_backward (fun _ j => (j : ℝ) - 1 : Mat 1 3) (fun _ _ => (5 : ℝ)) 0 1 = 5) ∧
    (relu_backward (fun _ j => (j : ℝ) - 1 : Mat 1 3) (fun _ _ => (5 : ℝ)) 0 2 = 5) :=
  ⟨(relu_backward_mask (b := 1) _ _ 0 0).1 (by norm_num),
   (relu_backward_mask (b := 1) _ _ 0 1).2 (by norm_num),
   (relu_backward_mask (b := 1) _ _ 0 2).2 (by norm_num)⟩

/-- `FullyConnectedLayer` (layers.py): weight `Param` of shape
`(n_input, n_output)` and bias `Param` of shape `(1, n_output)`. -/
structure FullyConnectedLayer (nin nout : ℕ) where
  W : Param nin nout
  B : Param 1 nout

/-- `FullyConnectedLayer.forward`: caches `X` (passed explicitly to
`backward`) and returns `np.dot(X, W.value) + B.value`, the bias row
broadcast across batch rows. -/
def fc_forward {b nin nout : ℕ} (L : FullyConnectedLayer nin nout)
    (X : Mat b nin) : Mat b nout :=
  fun i j => (∑ k, X i k * L.W.value k j) + L.B.value 0 j

/-- `FullyConnectedLayer.backward`: `W.grad += X.T @ d_out`,
`B.grad += np.sum(d_out, axis=0)` (both accumulate), returns
`d_out @ W.value.T`.  `Xc` is the input cached by the last `forward`. -/
def fc_backward {b nin nout : ℕ} (L : FullyConnectedLayer nin nout)
    (Xc : Mat b nin) (d_out : Mat b nout) :
    FullyConnectedLayer nin nout × Mat b nin :=
  (⟨⟨L.W.value, fun k j => L.W.grad k j + ∑ i, Xc i k * d_out i j⟩,
    ⟨L.B.value, fun _ j => L.B.grad 0 j + ∑ i, d_out i j⟩⟩,
   fun i k => ∑ j, d_out i j * L.W.value k j)

/-- C4: `FullyConnectedLayer.backward` adds `Xᵀ·d_out` to `W.grad` and the
column sums of `d_out` to `B.grad` (accumulating into the existing values,
which are left as summands), leaves both parameter values unchanged, and
returns `d_out·Wᵀ`. -/
theorem fc_backward_spec {b nin nout : ℕ} (L : FullyConnectedLayer nin nout)
    (Xc : Mat b nin) (d_out : Mat b nout) :
    ((fc_backward L Xc d_out).1.W.grad =
      fun k j => L.W.grad k j + ∑ i, Xc i k * d_out i j) ∧
    ((fc_backward L Xc d_out).1.B.grad =
      fun r j => L.B.grad r j + ∑ i, d_out i j) ∧
    ((fc_backward L Xc d_out).1.W.value = L.W.value) ∧
    ((fc_backward L Xc d_out).1.B.value = L.B.value) ∧
    ((fc_backward L Xc d_out).2 = fun i k => ∑ j, d_out i j * L.W.value k j) := by
  refine ⟨rfl, ?_, rfl, rfl, rfl⟩
  funext r j
  have hr : r = 0 := Subsingleton.elim r 0
  rw [hr]
  rfl

/-- Zeroed-gradient copy of a fully connected layer:
`param.grad = np.zeros_like(param.value)` for both parameters. -/
def zeroGradsFC {nin nout : ℕ} (L : FullyConnectedLayer nin nout) :
    FullyConnectedLayer nin nout :=
  ⟨⟨L.W.value, fun _ _ => 0⟩, ⟨L.B.value, fun _ _ => 0⟩⟩

/-- `TwoLayerNet` (model.py): regularization strength and the fixed layer
sequence `[FullyConnected(n_input, hidden), ReLU, FullyConnected(hidden,
n_output)]` (the ReLU layer holds no parameters). -/
structure TwoLayerNet (I H C : ℕ) where
  reg : ℝ
  fc1 : FullyConnectedLayer I H
  fc2 : FullyConnectedLayer H C

/-- `TwoLayerNet.compute_loss_and_gradients`: zero every owned parameter's
grad, forward through fc1 → ReLU → fc2, softmax+cross-entropy on the
output, then walk the layers in reverse adding the L2 loss/gradient of each
layer exposing a `W` parameter before calling that layer's backward. -/
noncomputable def compute_loss_and_gradients {b I H C : ℕ}
    (net : TwoLayerNet I H (C + 1)) (X : Mat b I) (y : Fin b → Fin (C + 1)) :
    ℝ × TwoLayerNet I H (C + 1) :=
  let fc1 := zeroGradsFC net.fc1
  let fc2 := zeroGradsFC net.fc2
  let h1 := fc_forward fc1 X
  let h2 := relu_forward h1
  let out := fc_forward fc2 h2
  let lg := softmax_with_cross_entropy2 out y
  let r2 := l2_regularization fc2.W.value net.reg
  let fc2a : FullyConnectedLayer H (C + 1) :=
    ⟨⟨fc2.W.value, fun k j => fc2.W.grad k j + r2.2 k j⟩, fc2.B⟩
  let bk2 := fc_backward fc2a h2 lg.2
  let d1 := relu_backward h1 bk2.2
  let r1 := l2_regularization fc1.W.value net.reg
  let fc1a : FullyConnectedLayer I H :=
    ⟨⟨fc1.W.value, fun k j => fc1.W.grad k j + r1.2 k j⟩, fc1.B⟩
  let bk1 := fc_backward fc1a X d1
  (lg.1 + r2.1 + r1.1, ⟨net.reg, bk1.1, bk2.1⟩)

/-- Forward pass of the two-layer net on the parameter values only. -/
noncomputable def net_forward {b I H C : ℕ} (net : TwoLayerNet I H (C + 1))
    (X : Mat b I) : Mat b (C + 1) :=
  fc_forward net.fc2 (relu_forward (fc_forward net.fc1 X))

/-- Upstream gradient entering the backward walk: the gradient half of
softmax+cross-entropy at the forward output. -/
noncomputable def net_dout {b I H C : ℕ} (net : TwoLayerNet I H (C + 1))
    (X : Mat b I) (y : Fin b → Fin (C + 1)) : Mat b (C + 1) :=
  (softmax_with_cross_entropy2 (net_forward net X) y).2

/-- Gradient reaching the first fully connected layer: the upstream
gradient propagated through fc2's backward and the ReLU mask. -/
noncomputable def net_dhidden {b I H C : ℕ} (net : TwoLayerNet I H (C + 1))
    (X : Mat b I) (y : Fin b → Fin (C + 1)) : Mat b H :=
  relu_backward (fc_forward net.fc1 X)
    (fun i k => ∑ j, net_dout net X y i j * net.fc2.W.value k j)

/-- C2: the total loss is the softmax cross-entropy loss on the forward
output plus `reg * sum(W^2)` for each of the two layers exposing a `W`
parameter; each `W.grad` carries the regularization contribution
`2 * reg * W` on top of its backward contribution, while the `B.grad`s are
exactly the backward column sums with no regularization term. -/
theorem two_layer_loss_and_reg_grads {b I H C : ℕ} (net : TwoLayerNet I H (C + 1))
    (X : Mat b I) (y : Fin b → Fin (C + 1)) :
    ((compute_loss_and_gradients net X y).1 =
      (softmax_with_cross_entropy2 (net_forward net X) y).1
        + net.reg * (∑ i, ∑ j, net.fc1.W.value i j ^ 2)
        + net.reg * (∑ i, ∑ j, net.fc2.W.value i j ^ 2)) ∧
    ((compute_loss_and_gradients net X y).2.fc2.W.grad =
      fun k j => 2 * net.reg * net.fc2.W.value k j
        + ∑ i, relu_forward (fc_forward net.fc1 X) i k * net_dout net X y i j) ∧
    ((compute_loss_and_gradients net X y).2.fc2.B.grad =
      fun _ j => ∑ i, net_dout net X y i j) ∧
    ((compute_loss_and_gradients net X y).2.fc1.W.grad =
      fun k j => 2 * net.reg * net.fc1.W.value k j
        + ∑ i, X i k * net_dhidden net X y i j) ∧
    ((compute_loss_and_gradients net X y).2.fc1.B.grad =
      fun _ j => ∑ i, net_dhidden net X y i j) := by
  refine ⟨?_, ?_, ?_, ?_, ?_⟩
  · show (softmax_with_cross_entropy2 (net_forward net X) y).1
        + net.reg * (∑ i, ∑ j, net.fc2.W.value i j ^ 2)
        + net.reg * (∑ i, ∑ j, net.fc1.W.value i j ^ 2) = _
    ring
  · funext k j
    show (0 : ℝ) + 2 * net.reg * net.fc2.W.value k j
        + ∑ i, relu_forward (fc_forward net.fc1 X) i k * net_dout net X y i j = _
    rw [zero_add]
  · funext r j
    exact zero_add _
  · funext k j
    show (0 : ℝ) + 2 * net.reg * net.fc1.W.value k j
        + ∑ i, X i k * net_dhidden net X y i j = _
    rw [zero_add]
  · funext r j
    exact zero_add _

/-- C6: `compute_loss_and_gradients` zeroes the owned gradients at the
start of each call, so a second call with the same inputs and the (value-)
unchanged parameter state returns the same loss and leaves every gradient
(and the whole parameter state) identical to the first call. -/
theorem compute_loss_and_gradients_repeat {b I H C : ℕ}
    (net : TwoLayerNet I H (C + 1)) (X : Mat b I) (y : Fin b → Fin (C + 1)) :
    compute_loss_and_gradients ((compute_loss_and_gradients net X y).2) X y =
      compute_loss_and_gradients net X y :=
  rfl

/-- `linear_softmax` (linear_classifer.py): `predictions = X @ W`, loss and
`dprediction` via `softmax_with_cross_entropy`, `dW = X.T @ dprediction`. -/
noncomputable def linear_softmax {b F C : ℕ} (X : Mat b F) (W : Mat F (C + 1))
    (t : Fin b → Fin (C + 1)) : ℝ × Mat F (C + 1) :=
  let p : Mat b (C + 1) := fun i j => ∑ k, X i k * W k j
  let lg := softmax_with_cross_entropy2 p t
  (lg.1, fun k j => ∑ i, X i k * lg.2 i j)

/-- `np.arange(batch_size, num_train, batch_size)`: the positive multiples
of `batch_size` strictly below `num_train`. -/
def sectionsList (bs N : ℕ) : List ℕ :=
  (List.range ((N - 1) / bs)).map fun k => (k + 1) * bs

/-- `np.array_split(l, secs)` for an increasing list of absolute cut
positions: slices `l[0:s₁], l[s₁:s₂], …, l[sₘ:]`. -/
def arraySplit {α : Type} (l : List α) : List ℕ → List (List α)
  | [] => [l]
  | s :: ss => l.take s :: arraySplit (l.drop s) (ss.map (· - s))
termination_by secs => secs.length

/-- One iteration of the inner loop of `LinearSoftmaxClassifier.fit`:
gather the batch rows of `X` and `y` at the chunk's indices, add the
classification and regularization losses, and update
`W -= learning_rate * (dW1 + dW2)`.  Returns the updated weights and the
combined batch loss. -/
noncomputable def batchStep {N F C : ℕ} (X : Mat N F) (y : Fin N → Fin (C + 1))
    (lr reg : ℝ) (W : Mat F (C + 1)) (c : List (Fin N)) : Mat F (C + 1) × ℝ :=
  let bX : Mat c.length F := fun i j => X (c.get i) j
  let yb : Fin c.length → Fin (C + 1) := fun i => y (c.get i)
  let ls := linear_softmax bX W yb
  let rg := l2_regularization W reg
  (fun k j => W k j - lr * (ls.2 k j + rg.2 k j), ls.1 + rg.1)

/-- The inner loop of one epoch: fold `batchStep` over the epoch's batches,
accumulating the summed loss and the batch count. -/
noncomputable def epochFold {N F C : ℕ} (X : Mat N F) (y : Fin N → Fin (C + 1))
    (lr reg : ℝ) : List (List (Fin N)) → Mat F (C + 1) × ℝ × ℕ →
      Mat F (C + 1) × ℝ × ℕ
  | [], s => s
  | c :: cs, s =>
      epochFold X y lr reg cs
        ((batchStep X y lr reg s.1 c).1, s.2.1 + (batchStep X y lr reg s.1 c).2,
          s.2.2 + 1)

/-- `LinearSoftmaxClassifier.fit` with the per-epoch shuffles passed in as
explicit data (the code draws them from the global NumPy random state):
each epoch splits its shuffled index list into batches with
`np.array_split(shuffled_indices, np.arange(batch_size, num_train,
batch_size))`, runs the batch loop, and appends the epoch's summed loss
divided by its batch count to the history. -/
noncomputable def fit {N F C : ℕ} (X : Mat N F) (y : Fin N → Fin (C + 1))
    (W0 : Mat F (C + 1)) (bs : ℕ) (lr reg : ℝ) :
    List (List (Fin N)) → Mat F (C + 1) × List ℝ
  | [] => (W0, [])
  | sh :: rest =>
      let cs := arraySplit sh (sectionsList bs N)
      let e := epochFold X y lr reg cs (W0, 0, 0)
      let r := fit X y e.1 bs lr reg rest
      (r.1, (e.2.1 / (e.2.2 : ℝ)) :: r.2)

/-- The weights after folding an epoch's batches from a given start. -/
noncomputable def chunkApply {N F C : ℕ} (X : Mat N F) (y : Fin N → Fin (C + 1))
    (lr reg : ℝ) : Mat F (C + 1) → List (List (Fin N)) → Mat F (C + 1)
  | W, [] => W
  | W, c :: cs => chunkApply X y lr reg (batchStep X y lr reg W c).1 cs

/-- The combined per-batch losses observed while folding an epoch's batches
from a given start. -/
noncomputable def chunkLosses {N F C : ℕ} (X : Mat N F) (y : Fin N → Fin (C + 1))
    (lr reg : ℝ) : Mat F (C + 1) → List (List (Fin N)) → List ℝ
  | _, [] => []
  | W, c :: cs =>
      (batchStep X y lr reg W c).2 ::
        chunkLosses X y lr reg (batchStep X y lr reg W c).1 cs

/-- Splitting a nonempty index list at the positive multiples of
`batch_size` yields a partition: the chunks concatenate back to the list,
there is at least one chunk, every chunk is nonempty of size at most
`batch_size`, and every chunk except possibly the last has size exactly
`batch_size`. -/
theorem arraySplit_sections_spec {α : Type} (bs : ℕ) (hbs : 0 < bs) :
    ∀ (n : ℕ) (l : List α), l.length = n → l ≠ [] →
      (arraySplit l (sectionsList bs l.length)).flatten = l ∧
      arraySplit l (sectionsList bs l.length) ≠ [] ∧
      (∀ c ∈ arraySplit l (sectionsList bs l.length), c ≠ [] ∧ c.length ≤ bs) ∧
      (∀ c ∈ (arraySplit l (sectionsList bs l.length)).dropLast, c.length = bs) := by
  intro n
  induction n using Nat.strong_induction_on with
  | _ n ih =>
  intro l hlen hne
  have hpos : 0 < l.length := List.length_pos.mpr hne
  by_cases hsmall : l.length ≤ bs
  · have h0 : (l.length - 1) / bs = 0 := Nat.div_eq_of_lt (by omega)
    have hsec : sectionsList bs l.length = [] := by
      simp [sectionsList, h0]
    rw [hsec]
    refine ⟨by simp [arraySplit], by simp [arraySplit], ?_, by simp [arraySplit]⟩
    intro c hc
    simp only [arraySplit, List.mem_singleton] at hc
    rcases hc with rfl
    exact ⟨hne, hsmall⟩
  · push_neg at hsmall
    set N := l.length with hN
    have hdivN : (N - 1) / bs = (N - 1 - bs) / bs + 1 := by
      conv_lhs => rw [show N - 1 = N - 1 - bs + bs by omega]
      rw [Nat.add_div_right _ hbs]
    have hsec : sectionsList bs N =
        bs :: (List.range ((N - 1 - bs) / bs)).map (fun k => (k + 2) * bs) := by
      unfold sectionsList
      rw [hdivN, List.range_succ_eq_map, List.map_cons, List.map_map]
      congr 1
      norm_num
    have hmap : ((List.range ((N - 1 - bs) / bs)).map (fun k => (k + 2) * bs)).map
        (· - bs) = sectionsList bs (N - bs) := by
      rw [List.map_map]
      unfold sectionsList
      rw [show N - bs - 1 = N - 1 - bs by omega]
      apply List.map_congr_left
      intro k _
      have hk : (k + 2) * bs = (k + 1) * bs + bs := by ring
      simp only [Function.comp]
      rw [hk, Nat.add_sub_cancel]
    have hstep : arraySplit l (sectionsList bs N) =
        l.take bs :: arraySplit (l.drop bs) (sectionsList bs (N - bs)) := by
      rw [hsec, ← hmap]
      rw [arraySplit]
    have hdlen : (l.drop bs).length = N - bs := by simp
    have hdne : l.drop bs ≠ [] := by
      apply List.length_pos.mp
      omega
    obtain ⟨hjoin2, hne2, hmem2, hlast2⟩ :=
      ih (N - bs) (by omega) (l.drop bs) hdlen hdne
    rw [hdlen] at hjoin2 hne2 hmem2 hlast2
    have htake : (l.take bs).length = bs := by
      simp [List.length_take]
      omega
    refine ⟨?_, ?_, ?_, ?_⟩
    · rw [hstep, List.flatten_cons, hjoin2, List.take_append_drop]
    · rw [hstep]
      exact List.cons_ne_nil _ _
    · intro c hc
      rw [hstep] at hc
      rcases List.mem_cons.mp hc with rfl | hc2
      · refine ⟨List.length_pos.mp (by omega), le_of_eq htake⟩
      · exact hmem2 c hc2
    · intro c hc
      rw [hstep] at hc
      obtain ⟨c2, cs2, hcc⟩ := List.exists_cons_of_ne_nil hne2
      rw [hcc, List.dropLast_cons₂] at hc
      rcases List.mem_cons.mp hc with rfl | hc2
      · exact htake
      · rw [← hcc] at hc2
        exact hlast2 c hc2

/-- Unfolds the epoch fold into the final weights, the summed batch losses
and the batch count. -/
theorem epochFold_spec {N F C : ℕ} (X : Mat N F) (y : Fin N → Fin (C + 1))
    (lr reg : ℝ) :
    ∀ (cs : List (List (Fin N))) (W : Mat F (C + 1)) (loss : ℝ) (cnt : ℕ),
      epochFold X y lr reg cs (W, loss, cnt) =
        (chunkApply X y lr reg W cs,
          loss + (chunkLosses X y lr reg W cs).sum, cnt + cs.length) := by
  intro cs
  induction cs with
  | nil => intro W loss cnt; simp [epochFold, chunkApply, chunkLosses]
  | cons c cs ih =>
    intro W loss cnt
    simp only [epochFold, ih, chunkApply, chunkLosses, List.sum_cons,
      List.length_cons, Prod.mk.injEq]
    exact ⟨trivial, by ring, by omega⟩

/-- The training history has one entry per provided epoch shuffle. -/
theorem fit_history_length {N F C : ℕ} (X : Mat N F) (y : Fin N → Fin (C + 1))
    (bs : ℕ) (lr reg : ℝ) :
    ∀ (shs : List (List (Fin N))) (W0 : Mat F (C + 1)),
      (fit X y W0 bs lr reg shs).2.length = shs.length := by
  intro shs
  induction shs with
  | nil => intro W0; rfl
  | cons sh rest ih =>
    intro W0
    simp only [fit, List.length_cons]
    rw [ih]

/-- Each history entry is the epoch's summed combined batch loss divided by
the epoch's batch count, starting from the weights left by the previous
epochs. -/
theorem fit_history_get {N F C : ℕ} (X : Mat N F) (y : Fin N → Fin (C + 1))
    (bs : ℕ) (lr reg : ℝ) :
    ∀ (shs : List (List (Fin N))) (W0 : Mat F (C + 1)) (k : ℕ)
      (sh : List (Fin N)), shs[k]? = some sh →
      (fit X y W0 bs lr reg shs).2[k]? =
        some ((chunkLosses X y lr reg (fit X y W0 bs lr reg (shs.take k)).1
            (arraySplit sh (sectionsList bs N))).sum /
          ((arraySplit sh (sectionsList bs N)).length : ℝ)) := by
  intro shs
  induction shs with
  | nil => intro W0 k sh h; simp at h
  | cons sh0 rest ih =>
    intro W0 k sh h
    have hfit : (fit X y W0 bs lr reg (sh0 :: rest)).2 =
        ((epochFold X y lr reg (arraySplit sh0 (sectionsList bs N))
            (W0, 0, 0)).2.1 /
          ((epochFold X y lr reg (arraySplit sh0 (sectionsList bs N))
            (W0, 0, 0)).2.2 : ℝ)) ::
        (fit X y (epochFold X y lr reg (arraySplit sh0 (sectionsList bs N))
          (W0, 0, 0)).1 bs lr reg rest).2 := rfl
    cases k with
    | zero =>
      rw [List.getElem?_cons_zero] at h
      injection h with h
      subst h
      rw [hfit, List.getElem?_cons_zero, epochFold_spec]
      simp [fit, zero_add]
    | succ k =>
      rw [List.getElem?_cons_succ] at h
      rw [hfit, List.getElem?_cons_succ, List.take_succ_cons]
      have hW : (fit X y W0 bs lr reg (sh0 :: List.take k rest)).1 =
          (fit X y (epochFold X y lr reg (arraySplit sh0 (sectionsList bs N))
            (W0, 0, 0)).1 bs lr reg (List.take k rest)).1 := rfl
      rw [hW]
      exact ih _ k sh h

/-- C7: for a training set with at least one sample and a positive batch
size, each epoch of `fit` splits its shuffled index list into contiguous
batches that concatenate back to the shuffle (so, for a genuine shuffle,
every sample index occurs in exactly one batch per epoch), with every batch
of size exactly `batch_size` except possibly the last (all nonempty, none
larger); every batch applies the update
`W -= learning_rate * (dW_classification + dW_regularization)`; and the
returned history has exactly one entry per epoch, the mean over that
epoch's batches of the combined classification + L2 loss. -/
theorem fit_epochs_spec {N F C : ℕ} (X : Mat N F) (y : Fin N → Fin (C + 1))
    (W0 : Mat F (C + 1)) (bs : ℕ) (lr reg : ℝ)
    (shuffles : List (List (Fin N)))
    (hN : 0 < N) (hbs : 0 < bs)
    (hsh : ∀ sh ∈ shuffles, sh.Perm (List.finRange N)) :
    ((fit X y W0 bs lr reg shuffles).2.length = shuffles.length) ∧
    (∀ (W : Mat F (C + 1)) (c : List (Fin N)),
      batchStep X y lr reg W c =
        (fun k j => W k j - lr *
            ((linear_softmax (fun i j => X (c.get i) j) W
              (fun i => y (c.get i))).2 k j + (l2_regularization W reg).2 k j),
          (linear_softmax (fun i j => X (c.get i) j) W
            (fun i => y (c.get i))).1 + (l2_regularization W reg).1)) ∧
    (∀ (k : ℕ) (sh : List (Fin N)), shuffles[k]? = some sh →
      (arraySplit sh (sectionsList bs N)).flatten = sh ∧
      (∀ i : Fin N, (arraySplit sh (sectionsList bs N)).flatten.count i = 1) ∧
      (∀ c ∈ arraySplit sh (sectionsList bs N), c ≠ [] ∧ c.length ≤ bs) ∧
      (∀ c ∈ (arraySplit sh (sectionsList bs N)).dropLast, c.length = bs) ∧
      (fit X y W0 bs lr reg shuffles).2[k]? =
        some ((chunkLosses X y lr reg
            (fit X y W0 bs lr reg (shuffles.take k)).1
            (arraySplit sh (sectionsList bs N))).sum /
          ((arraySplit sh (sectionsList bs N)).length : ℝ))) := by
  refine ⟨fit_history_length X y bs lr reg shuffles W0, fun W c => rfl, ?_⟩
  intro k sh h
  have hmem : sh ∈ shuffles := List.getElem?_mem h
  have hperm := hsh sh hmem
  have hlen : sh.length = N := by rw [hperm.length_eq, List.length_finRange]
  have hne : sh ≠ [] := by
    intro he
    rw [he] at hlen
    simp at hlen
    omega
  obtain ⟨hj, hcne, hmemc, hlast⟩ :=
    arraySplit_sections_spec bs hbs sh.length sh rfl hne
  rw [hlen] at hj hcne hmemc hlast
  refine ⟨hj, ?_, hmemc, hlast, fit_history_get X y bs lr reg shuffles W0 k sh h⟩
  intro i
  rw [hj, hperm.count_eq]
  exact List.count_eq_one_of_mem (List.nodup_finRange N) (List.mem_finRange i)

/-- Concrete instantiation of C7: three samples, batch size two, one epoch
with shuffle `[1, 0, 2]`; the history has one entry. -/
theorem fit_epochs_spec_witness :
    0 < 3 ∧ 0 < 2 ∧
    (fit (fun _ _ => (0 : ℝ) : Mat 3 1) (fun _ => (0 : Fin 1))
        (fun _ _ => 0) 2 0 0 [[1, 0, 2]]).2.length = 1 :=
  ⟨by decide, by decide,
    (fit_epochs_spec (fun _ _ => (0 : ℝ) : Mat 3 1) (fun _ => (0 : Fin 1))
        (fun _ _ => 0) 2 0 0 [[1, 0, 2]]
        (by decide) (by decide) (by decide)).1⟩

/-- `np.log` on the nonnegative inputs that probabilities provide, with the
IEEE convention made explicit in the extended reals: `log 0 = -inf`,
positive arguments give their finite logarithm. -/
noncomputable def logF (x : ℝ) : EReal :=
  if x = 0 then ⊥ else (Real.log x : EReal)

/-- `cross_entropy_loss` (2-D branch) valued in the extended reals, so that
the degenerate zero-probability behaviour of the float code is observable:
`-np.mean(np.log(target_probs))` over a nonempty batch of `b + 1` rows. -/
noncomputable def cross_entropy_loss2F {b n : ℕ} (probs : Mat (b + 1) (n + 1))
    (t : Fin (b + 1) → Fin (n + 1)) : EReal :=
  -((∑ i, logF (probs i (t i))) / (((b : ℝ) + 1 : ℝ) : EReal))

/-- `cross_entropy_loss` (1-D branch) valued in the extended reals. -/
noncomputable def cross_entropy_loss1F {n : ℕ} (probs : Fin (n + 1) → ℝ)
    (t : Fin (n + 1)) : EReal :=
  -logF (probs t)

theorem ereal_coe_sum {ι : Type} (s : Finset ι) (f : ι → ℝ) :
    ((∑ i in s, f i : ℝ) : EReal) = ∑ i in s, (f i : EReal) :=
  map_sum (⟨⟨Real.toEReal, EReal.coe_zero⟩, EReal.coe_add⟩ : ℝ →+ EReal) f s

theorem ereal_sum_eq_bot {ι : Type} [DecidableEq ι] (s : Finset ι) (f : ι → EReal) (i0 : ι)
    (hi : i0 ∈ s) (h : f i0 = ⊥) : ∑ i in s, f i = ⊥ := by
  rw [← Finset.add_sum_erase s f hi, h, add_comm]
  exact EReal.add_bot _

/-- C9 (amended): `cross_entropy_loss` returns the negative mean over the
batch rows (or over the single sample) of the log of the probability
assigned to the true class; the extended-real model agrees with the real
model whenever every target probability is nonzero, and when some target
probability is exactly 0 the result is `+inf` — non-finite rather than an
error (`loss = -mean(log(...))` and `log 0 = -inf`). -/
theorem cross_entropy_loss_spec {b n : ℕ} (probs : Mat (b + 1) (n + 1))
    (t : Fin (b + 1) → Fin (n + 1)) :
    (cross_entropy_loss2 probs t =
      -((∑ i, Real.log (probs i (t i))) / ((b : ℝ) + 1))) ∧
    ((∀ i, probs i (t i) ≠ 0) →
      cross_entropy_loss2F probs t = ((cross_entropy_loss2 probs t : ℝ) : EReal)) ∧
    ((∃ i, probs i (t i) = 0) → cross_entropy_loss2F probs t = ⊤) ∧
    (∀ (q : Fin (n + 1) → ℝ) (s : Fin (n + 1)),
      (q s ≠ 0 → cross_entropy_loss1F q s = ((cross_entropy_loss1 q s : ℝ) : EReal)) ∧
      (q s = 0 → cross_entropy_loss1F q s = ⊤)) := by
  refine ⟨?_, ?_, ?_, ?_⟩
  · unfold cross_entropy_loss2
    push_cast
    ring
  · intro hpos
    have hsum : (∑ i, logF (probs i (t i))) =
        (((∑ i, Real.log (probs i (t i))) : ℝ) : EReal) := by
      rw [ereal_coe_sum]
      exact Finset.sum_congr rfl fun i _ => if_neg (hpos i)
    unfold cross_entropy_loss2F cross_entropy_loss2
    rw [hsum, ← EReal.coe_div, ← EReal.coe_neg]
    norm_cast
  · rintro ⟨i0, hi0⟩
    unfold cross_entropy_loss2F
    have hb : (∑ i, logF (probs i (t i))) = ⊥ :=
      ereal_sum_eq_bot _ _ i0 (Finset.mem_univ i0) (by simp [logF, hi0])
    rw [hb, EReal.bot_div_of_pos_ne_top (EReal.coe_pos.mpr (by positivity))
      (EReal.coe_ne_top _), EReal.neg_bot]
  · intro q s
    constructor
    · intro hq
      unfold cross_entropy_loss1F cross_entropy_loss1
      rw [show logF (q s) = ((Real.log (q s) : ℝ) : EReal) from if_neg hq,
        ← EReal.coe_neg]
    · intro hq
      unfold cross_entropy_loss1F
      rw [show logF (q s) = ⊥ from if_pos hq, EReal.neg_bot]

/-- C9, counterexample to the claim as stated: with target probability
exactly 0 the loss is `+inf` (`⊤`), not `-inf` (`⊥`): the negated mean of a
`-inf` log is `+inf`. -/
theorem cross_entropy_zero_prob_counterexample :
    cross_entropy_loss2F (fun _ j => if j = 0 then 1 else 0 : Mat 1 2)
        (fun _ => 1) = ⊤ ∧
    (⊤ : EReal) ≠ ⊥ := by
  constructor
  · unfold cross_entropy_loss2F
    have hb : (∑ i : Fin 1,
        logF ((fun (_ : Fin 1) (j : Fin 2) => if j = 0 then (1 : ℝ) else 0) i
          ((fun _ => 1) i))) = ⊥ := by
      apply ereal_sum_eq_bot _ _ 0 (Finset.mem_univ 0)
      have h1 : ((1 : Fin 2) = 0) = False := by simp [Fin.ext_iff]
      simp [logF, h1]
    rw [hb, EReal.bot_div_of_pos_ne_top (EReal.coe_pos.mpr (by norm_num))
      (EReal.coe_ne_top _), EReal.neg_bot]
  · exact top_ne_bot

/-- Concrete instantiation of the nonzero-probability case of C9. -/
theorem cross_entropy_loss_spec_witness :
    ((1 : ℝ) / 2 ≠ 0) ∧
    cross_entropy_loss2F (fun _ _ => (1 / 2 : ℝ) : Mat 1 2) (fun _ => 0) =
      ((cross_entropy_loss2 (fun _ _ => (1 / 2 : ℝ) : Mat 1 2)
        (fun _ => 0) : ℝ) : EReal) :=
  ⟨by norm_num,
    (cross_entropy_loss_spec (fun _ _ => (1 / 2 : ℝ)) (fun _ => 0)).2.1
      (fun i => by norm_num)⟩

/-- A store of NumPy arrays: a memory of array values addressed by
references, plus the next fresh reference.  Used to make the in-place
writes and allocations of the float code observable. -/
structure Heap (α : Type) where
  mem : ℕ → α
  next : ℕ

/-- Allocate a fresh array holding `v`, returning the new heap and the new
reference. -/
def allocH {α : Type} (h : Heap α) (v : α) : Heap α × ℕ :=
  (⟨Function.update h.mem h.next v, h.next + 1⟩, h.next)

/-- Overwrite the array at `r` in place with `f` of its current value. -/
def writeH {α : Type} (h : Heap α) (r : ℕ) (f : α → α) : Heap α :=
  ⟨Function.update h.mem r (f (h.mem r)), h.next⟩

/-- Heap-level `softmax` (2-D branch): `predictions - max`, `np.exp` and
the final division all allocate; the result is a fresh array whose value is
the pure `softmax2` of the argument, and the argument is only read. -/
noncomputable def softmaxH {b n : ℕ} (h : Heap (Mat b (n + 1))) (pRef : ℕ) :
    Heap (Mat b (n + 1)) × ℕ :=
  allocH h (softmax2 (h.mem pRef))

/-- Heap-level `softmax_with_cross_entropy` (2-D branch): `probs` is the
fresh array allocated by softmax, `dprediction = probs` is an alias of that
same array (not of the argument), and both `dprediction[...] -= 1` and
`dprediction /= size` write to it in place. -/
noncomputable def softmax_with_cross_entropyH {b n : ℕ}
    (h : Heap (Mat b (n + 1))) (pRef : ℕ) (t : Fin b → Fin (n + 1)) :
    Heap (Mat b (n + 1)) × ℝ × ℕ :=
  let s := softmaxH h pRef
  let probsRef := s.2
  let loss := cross_entropy_loss2 (s.1.mem probsRef) t
  let dpredRef := probsRef
  let h2 := writeH s.1 dpredRef
    (fun A => fun i j => if j = t i then A i j - 1 else A i j)
  let h3 := writeH h2 dpredRef (fun A => fun i j => A i j / b)
  (h3, loss, dpredRef)

/-- Heap-level `softmax` (1-D branch): as in the 2-D branch, the returned
probability vector is a freshly allocated array holding the pure
`softmax1` of the argument, which is only read. -/
noncomputable def softmax1H {n : ℕ} (h : Heap (Fin (n + 1) → ℝ)) (pRef : ℕ) :
    Heap (Fin (n + 1) → ℝ) × ℕ :=
  allocH h (softmax1 (h.mem pRef))

/-- Heap-level `softmax_with_cross_entropy` (1-D branch): `probs` is the
fresh array allocated by softmax, `dprediction = probs` aliases it (not the
argument), and `dprediction[target_index] -= 1` writes to it in place;
this branch performs no division. -/
noncomputable def softmax_with_cross_entropy1H {n : ℕ}
    (h : Heap (Fin (n + 1) → ℝ)) (pRef : ℕ) (t : Fin (n + 1)) :
    Heap (Fin (n + 1) → ℝ) × ℝ × ℕ :=
  let s := softmax1H h pRef
  let probsRef := s.2
  let loss := cross_entropy_loss1 (s.1.mem probsRef) t
  let dpredRef := probsRef
  let h2 := writeH s.1 dpredRef
    (fun A => Function.update A t (A t - 1))
  (h2, loss, dpredRef)

/-- Heap-level `ReLULayer.backward`: `d_result = d_out.copy()` allocates a
fresh array, and `d_result[self.X < 0] = 0` writes to the copy in place. -/
noncomputable def relu_backwardH {b n : ℕ} (h : Heap (Mat b n)) (Xc : Mat b n)
    (dRef : ℕ) : Heap (Mat b n) × ℕ :=
  let cp := allocH h (h.mem dRef)
  let h2 := writeH cp.1 cp.2 (fun A => fun i j => if Xc i j < 0 then 0 else A i j)
  (h2, cp.2)

/-- C10: `softmax_with_cross_entropy` never modifies its `predictions`
argument — in the batched branch and in the single-sample branch alike —
and returns its gradient in a fresh array distinct from the argument
(holding exactly the pure gradient of the respective branch), and
`ReLULayer.backward` never modifies its `d_out` argument and returns a
fresh array distinct from it (holding the pure masked gradient). -/
theorem no_mutation_of_arguments {b n : ℕ} :
    (∀ (h : Heap (Mat b (n + 1))) (pRef : ℕ) (t : Fin b → Fin (n + 1)),
      pRef < h.next →
        (softmax_with_cross_entropyH h pRef t).1.mem pRef = h.mem pRef ∧
        (softmax_with_cross_entropyH h pRef t).2.2 ≠ pRef ∧
        (softmax_with_cross_entropyH h pRef t).1.mem
            (softmax_with_cross_entropyH h pRef t).2.2 =
          (softmax_with_cross_entropy2 (h.mem pRef) t).2) ∧
    (∀ (h : Heap (Fin (n + 1) → ℝ)) (pRef : ℕ) (t : Fin (n + 1)),
      pRef < h.next →
        (softmax_with_cross_entropy1H h pRef t).1.mem pRef = h.mem pRef ∧
        (softmax_with_cross_entropy1H h pRef t).2.2 ≠ pRef ∧
        (softmax_with_cross_entropy1H h pRef t).1.mem
            (softmax_with_cross_entropy1H h pRef t).2.2 =
          (softmax_with_cross_entropy1 (h.mem pRef) t).2) ∧
    (∀ (h : Heap (Mat b n)) (Xc : Mat b n) (dRef : ℕ),
      dRef < h.next →
        (relu_backwardH h Xc dRef).1.mem dRef = h.mem dRef ∧
        (relu_backwardH h Xc dRef).2 ≠ dRef ∧
        (relu_backwardH h Xc dRef).1.mem (relu_backwardH h Xc dRef).2 =
          relu_backward Xc (h.mem dRef)) := by
  refine ⟨?_, ?_, ?_⟩
  · intro h pRef t hp
    have hne : pRef ≠ h.next := Nat.ne_of_lt hp
    refine ⟨?_, fun he => hne he.symm, ?_⟩
    · simp only [softmax_with_cross_entropyH, softmaxH, allocH, writeH]
      rw [Function.update_noteq hne, Function.update_noteq hne,
        Function.update_noteq hne]
    · simp only [softmax_with_cross_entropyH, softmaxH, allocH, writeH,
        Function.update_same]
      rfl
  · intro h pRef t hp
    have hne : pRef ≠ h.next := Nat.ne_of_lt hp
    refine ⟨?_, fun he => hne he.symm, ?_⟩
    · simp only [softmax_with_cross_entropy1H, softmax1H, allocH, writeH]
      rw [Function.update_noteq hne, Function.update_noteq hne]
    · simp only [softmax_with_cross_entropy1H, softmax1H, allocH, writeH,
        Function.update_same]
      rfl
  · intro h Xc dRef hd
    have hne : dRef ≠ h.next := Nat.ne_of_lt hd
    refine ⟨?_, fun he => hne he.symm, ?_⟩
    · simp only [relu_backwardH, allocH, writeH]
      rw [Function.update_noteq hne, Function.update_noteq hne]
    · simp only [relu_backwardH, allocH, writeH, Function.update_same]
      rfl

/-- Concrete instantiation of C10 on one-reference heaps, exercising the
batched branch, the single-sample branch and the ReLU backward. -/
theorem no_mutation_of_arguments_witness :
    (0 < 1 ∧
      (softmax_with_cross_entropyH
        (⟨fun _ => fun _ _ => 0, 1⟩ : Heap (Mat 1 1)) 0 (fun _ => 0)).1.mem 0 =
        (⟨fun _ => fun _ _ => 0, 1⟩ : Heap (Mat 1 1)).mem 0) ∧
    ((softmax_with_cross_entropy1H
        (⟨fun _ => fun _ => 0, 1⟩ : Heap (Fin 1 → ℝ)) 0 0).1.mem 0 =
        (⟨fun _ => fun _ => 0, 1⟩ : Heap (Fin 1 → ℝ)).mem 0 ∧
      (softmax_with_cross_entropy1H
        (⟨fun _ => fun _ => 0, 1⟩ : Heap (Fin 1 → ℝ)) 0 0).2.2 ≠ 0) ∧
    (relu_backwardH (⟨fun _ => fun _ _ => 0, 1⟩ : Heap (Mat 1 1))
        (fun _ _ => 0) 0).2 ≠ 0 :=
  ⟨⟨by decide,
    (no_mutation_of_arguments.1
      (⟨fun _ => fun _ _ => 0, 1⟩ : Heap (Mat 1 1)) 0 (fun _ => 0)
      (by decide)).1⟩,
   ⟨((@no_mutation_of_arguments 1 0).2.1
      (⟨fun _ => fun _ => 0, 1⟩ : Heap (Fin 1 → ℝ)) 0 0 (by decide)).1,
    ((@no_mutation_of_arguments 1 0).2.1
      (⟨fun _ => fun _ => 0, 1⟩ : Heap (Fin 1 → ℝ)) 0 0 (by decide)).2.1⟩,
   (no_mutation_of_arguments.2.2
      (⟨fun _ => fun _ _ => 0, 1⟩ : Heap (Mat 1 1)) (fun _ _ => 0) 0
      (by decide)).2.1⟩
